import Mathlib

/-!
Verification development for the `expo-native-fonts` iOS config plugin
(`src/plugin/src/ios/withNativeFontsIOS.ts`).

The plugin is a one-shot synchronous pipeline: filter fonts for iOS, group
them by Xcode target, patch the per-target `Info.plist` files by textual splicing,
copy the font source directory into `ios/Fonts`, and register each font file
as a build resource on its target.

The embedding below translates the TypeScript source into pure Lean
functions.  JavaScript/Node string primitives (`indexOf`, `slice`,
`replace`, `path.basename`, `path.extname`, `path.dirname`) are modelled on
`List Char`; the filesystem is an explicit state (`FSState`); the pipeline
additionally emits a trace of `Event`s recording the order of its side
effects, so that temporal claims about the pipeline become statements about
the trace.
-/

namespace ExpoNativeFonts

/-! ## JavaScript / Node string primitives -/

/-- First index (in characters) at which `pat` occurs in `hay`, if any.
Mirrors JavaScript `String.prototype.indexOf` (which returns the first
occurrence), specialised to character positions. -/
def listIndexOf? (hay pat : List Char) : Option Nat :=
  match hay with
  | [] => if pat.isEmpty then some 0 else none
  | _ :: t => if pat.isPrefixOf hay then some 0 else (listIndexOf? t pat).map (· + 1)

/-- JavaScript `hay.indexOf(pat)`: first character index of `pat` in `hay`,
`-1` when absent. -/
def jsIndexOf (hay pat : String) : Int :=
  match listIndexOf? hay.data pat.data with
  | some n => (n : Int)
  | none => -1

/-- JavaScript `contents.slice(0, i) + ins + contents.slice(i)`: splice `ins` into `s`
at character position `i`. -/
def strSplice (s : String) (i : Nat) (ins : String) : String :=
  String.mk (s.data.take i ++ ins.data ++ s.data.drop i)

/-- JavaScript `s.replace(pat, rep)` with a string pattern: replaces the
FIRST occurrence of `pat` only (or returns `s` unchanged when `pat` does not
occur). -/
def jsReplaceFirst (s pat rep : String) : String :=
  match listIndexOf? s.data pat.data with
  | none => s
  | some i => String.mk (s.data.take i ++ rep.data ++ s.data.drop (i + pat.length))

/-- Drop trailing `/` characters, as the Node path functions do before
extracting components. -/
def rstripSlashes (l : List Char) : List Char :=
  (l.reverse.dropWhile (· == '/')).reverse

/-- The final path component of an already slash-stripped character list. -/
def lastComponent (l : List Char) : List Char :=
  (l.reverse.takeWhile (· != '/')).reverse

/-- Node `path.basename(p)` (POSIX, no `ext` argument): the last portion of
the path, trailing separators ignored. -/
def basename (p : String) : String :=
  String.mk (lastComponent (rstripSlashes p.data))

/-- Node `path.extname(p)` (POSIX): the extension of the last path
component, from its last `.` to the end; empty when the component has no
dot, when its only dot is the leading character (dotfile), or when the
component is `..`. -/
def extname (p : String) : String :=
  let comp := lastComponent (rstripSlashes p.data)
  if comp == ['.', '.'] then ""
  else
    let afterRev := comp.reverse.takeWhile (· != '.')
    if afterRev.length == comp.length then ""
    else
      let dotIdx := comp.length - afterRev.length - 1
      if dotIdx == 0 then ""
      else String.mk (comp.drop dotIdx)

/-- Node `path.dirname(p)` (POSIX). -/
def dirname (p : String) : String :=
  let cs := rstripSlashes p.data
  let rest := rstripSlashes ((cs.reverse.dropWhile (· != '/')).reverse)
  if rest.isEmpty then (if p.data.head? == some '/' then "/" else ".") else String.mk rest

/-- Node `path.join(a, b)` for the simple shapes used by the plugin (no
`..` segments, no empty components): `a ++ "/" ++ b`. -/
def pathJoin (a b : String) : String := a ++ "/" ++ b

/-- JavaScript truthiness of `name || filePath` for an optional string
`name`: an absent or empty `name` falls through to `filePath`. -/
def jsOr (name : Option String) (filePath : String) : String :=
  match name with
  | some s => if s == "" then filePath else s
  | none => filePath

/-! ## Data model -/

/-- One `ExpoNativeFontOptions` record: one font declaration. -/
structure Font where
  filePath : String
  name : Option String := none
  platform : Option String := none
  targets : Option (List String) := none
deriving Repr, DecidableEq

/-- The `ExpoNativeFontsOptions` record: the whole-plugin configuration. -/
structure Options where
  fonts : List Font
  srcFolder : String
deriving Repr, DecidableEq

/-- A PBXNativeTarget entry, as far as the plugin inspects it. -/
structure PBXTarget where
  name : String
deriving Repr, DecidableEq

/-- The argument record passed to the host
`IOSConfig.XcodeUtils.addResourceFileToGroup` capability. -/
structure ResourceArgs where
  filepath : String
  groupName : String
  isBuildFile : Bool
  targetUuid : String
deriving Repr, DecidableEq

/-- The Xcode project object graph, as far as the plugin observes it: a
native-target section (uuid-keyed, in iteration order) and the list of
registered resources (the observable effect of registration calls). -/
structure XcodeProject where
  nativeTargets : List (String × PBXTarget)
  resources : List ResourceArgs
deriving Repr, DecidableEq

/-- The `config` value threaded through the mod: `modRequest.projectRoot`
and the mutable `modResults` project object. -/
structure Config where
  projectRoot : String
  modResults : XcodeProject
deriving Repr, DecidableEq

/-- The filesystem: files (path to contents, in creation order) and the set
of directories present. -/
structure FSState where
  files : List (String × String)
  dirs : List String
deriving Repr, DecidableEq

/-- Model of `fsExtra.readFileSync` and of `existsSync` on a file path. -/
def fsRead (fs : FSState) (p : String) : Option String :=
  (fs.files.find? (fun e => e.1 == p)).map (·.2)

/-- Model of `fsExtra.writeFileSync`: create or fully overwrite the file at `p`. -/
def fsWrite (fs : FSState) (p c : String) : FSState :=
  if fs.files.any (fun e => e.1 == p) then
    { fs with files := fs.files.map (fun e => if e.1 == p then (p, c) else e) }
  else
    { fs with files := fs.files ++ [(p, c)] }

/-- Model of the recursive `fsExtra.mkdirSync`; modelled at directory granularity
(the recursive flag makes the call total). -/
def mkdirRecursive (fs : FSState) (dir : String) : FSState :=
  { fs with dirs := fs.dirs ++ [dir] }

/-- Model of `fsExtra.copySync`: recursive merge copy; every file under
`src` is mirrored to the corresponding path under `dst`, overwriting
same-named files and leaving unrelated destination files in place. -/
def copyDir (fs : FSState) (src dst : String) : FSState :=
  let copied := fs.files.filterMap (fun e =>
    if (src ++ "/").isPrefixOf e.1 then some (dst ++ e.1.drop src.length, e.2) else none)
  copied.foldl (fun acc e => fsWrite acc e.1 e.2) fs

/-- Trace of the observable pipeline actions, in execution order. -/
inductive Event where
  | filter : Event
  | group : Event
  | plistWrite (path contents : String) : Event
  | copy (sourceDir targetDir : String) : Event
  | resolve (targetName : String) : Event
  | register (targetName filePath : String) : Event
deriving Repr, DecidableEq

def isPlistWriteE : Event → Bool
  | Event.plistWrite _ _ => true
  | _ => false

def isCopyE : Event → Bool
  | Event.copy _ _ => true
  | _ => false

def isResolveE : Event → Bool
  | Event.resolve _ => true
  | _ => false

def isRegisterE : Event → Bool
  | Event.register _ _ => true
  | _ => false

/-! ## Translation of `withNativeFontsIOS.ts` -/

/-- Translation of `getIOSFonts`: keep the fonts whose platform field is not the android
marker (the JavaScript strict inequality against the android marker is true for `undefined` and for any
other value). -/
def getIOSFonts (options : Options) : List Font :=
  options.fonts.filter (fun f => f.platform != some "android")

/-- The `FontsGrouped` mapping: target name to font bucket, in key-insertion order
(JavaScript objects iterate string keys in insertion order). -/
abbrev FontsGrouped : Type := List (String × List Font)

/-- The bucket update step of `groupByTarget` (spread of the existing bucket
plus the font, under the target key): append `font` to the bucket for `target`, creating the bucket (at the end
of the key order) when absent. -/
def bucketAdd (g : FontsGrouped) (t : String) (f : Font) : FontsGrouped :=
  if (List.any g (fun e => e.1 == t)) then
    List.map (fun (e : String × List Font) => if e.1 == t then (e.1, e.2 ++ [f]) else e) g
  else
    g ++ [(t, [f])]

/-- Read a bucket out of `FontsGrouped` (empty when the key is absent). -/
def bucketGet (g : FontsGrouped) (t : String) : List Font :=
  ((List.find? (fun (e : String × List Font) => e.1 == t) g).map (·.2)).getD []

/-- Translation of `groupByTarget`: for each font in order, throw when `targets` is falsy
(absent), else append the font to the bucket of each of its target names in
order.  Note the JavaScript `!targets` check: an EMPTY targets array is
truthy, so it passes the check and simply contributes to no bucket.
The loop body is the step `groupStep`; `groupByTarget` folds it over the
fonts starting from the empty mapping. -/
def groupStep (g : FontsGrouped) (font : Font) : Except String FontsGrouped :=
  match font.targets with
  | none =>
      Except.error ("Targets is required for iOS font " ++ jsOr font.name font.filePath)
  | some targets =>
      Except.ok (targets.foldl (fun g t => bucketAdd g t font) g)

def groupByTarget (fonts : List Font) : Except String FontsGrouped :=
  fonts.foldlM groupStep ([] : FontsGrouped)

/-- Translation of `getFontName`: a truthy `name` is returned unchanged; otherwise the
base name of `filePath` with the FIRST occurrence of its extension removed
(`path.basename(filePath).replace(ext, "")`). -/
def getFontName (font : Font) : String :=
  match font.name with
  | some s =>
      if s == "" then jsReplaceFirst (basename font.filePath) (extname font.filePath) ""
      else s
  | none => jsReplaceFirst (basename font.filePath) (extname font.filePath) ""

/-- Translation of `getPBXTargetByName`: scan the native-target section in iteration order
and return the first entry whose `name` equals the requested name
(case-sensitive `===`); `none` models the `{ target: null, uuid: null }`
result. -/
def getPBXTargetByName (project : XcodeProject) (name : String) :
    Option (String × PBXTarget) :=
  List.find? (fun (e : String × PBXTarget) => e.2.name == name) project.nativeTargets

/-- Modelled from the spec: the host
`IOSConfig.XcodeUtils.addResourceFileToGroup` capability (external
collaborator, not part of this repository) takes the argument record and a
project graph and returns the updated project graph with the resource
registered. -/
def addResourceFileToGroup (args : ResourceArgs) (project : XcodeProject) : XcodeProject :=
  { project with resources := project.resources ++ [args] }

/-- Translation of `addFontToXcodeProj`: capture `project = config.modResults`, resolve the
target by name (throwing when unresolved, before any registration call),
then for each font file assign
`config.modResults = addResourceFileToGroup({ ..., project, ... })`.
The source passes the CAPTURED `project` to every call — not the updated
`config.modResults`.  Returns the trace of resolve/register events and the
resulting config (or the thrown error). -/
def addFontToXcodeProj (config : Config) (targetName : String) (fonts : List Font) :
    List Event × Except String Config :=
  let project := config.modResults
  let fontFiles := fonts.map (·.filePath)
  match getPBXTargetByName project targetName with
  | none =>
      ([Event.resolve targetName],
       Except.error ("expo-native-fonts:: cannot find target " ++ targetName ++
         ". Has the target been set up correctly?"))
  | some (targetUuid, _) =>
      (Event.resolve targetName :: fontFiles.map (fun fp => Event.register targetName fp),
       Except.ok (fontFiles.foldl (fun cfg filePath =>
         let args : ResourceArgs :=
           { filepath := pathJoin "Fonts" filePath
             groupName := "Resources"
             isBuildFile := true
             targetUuid := targetUuid }
         { cfg with modResults := addResourceFileToGroup args project }) config))

/-- The plist file path for a target:
joining the project root, the ios directory, the
target name, and the file name `Info.plist`. -/
def plistPath (projectRoot targetName : String) : String :=
  pathJoin (pathJoin (pathJoin projectRoot "ios") targetName) "Info.plist"

/-- The minimal plist document written when the `Info.plist` file of a target is
missing — the exact template literal from the source, 12-space indentation
included. -/
def defaultInfoPlist : String :=
  "<?xml version=\"1.0\" encoding=\"UTF-8\"?>\n            <!DOCTYPE plist PUBLIC \"-//Apple//DTD PLIST 1.0//EN\" \"http://www.apple.com/DTDs/PropertyList-1.0.dtd\">\n            <plist version=\"1.0\">\n            <dict>\n            </dict>\n            </plist>\n            "

/-- The `insertionKeys` reduce: one `<string>` line per font, using
`path.basename(filePath)`, accumulated in bucket order. -/
def insertionKeys (targetFonts : List Font) : String :=
  targetFonts.foldl (fun contents font =>
    contents ++ "\n            <string>" ++ basename font.filePath ++ "</string>") ""

/-- The `insertionContents` fragment: a single `UIAppFonts` key with an
array of the font base names of the bucket. -/
def insertionContents (targetFonts : List Font) : String :=
  "<key>UIAppFonts</key>\n        <array>\n        " ++ insertionKeys targetFonts ++
    "\n        </array>"

/-- The splice step of `updateInfoPlist` on the contents of one file: insert the
fragment right after the first `<dict>`; when `<dict>` is absent, right
before the first `</plist>`; when both are absent, throw the format error
naming the file. -/
def patchPlistContent (plistFilePath contents : String) (targetFonts : List Font) :
    Except String String :=
  let dictIndex := jsIndexOf contents "<dict>"
  if dictIndex == -1 then
    let plistEndIndex := jsIndexOf contents "</plist>"
    if plistEndIndex == -1 then
      Except.error ("Your Info.plist file at " ++ plistFilePath ++
        " does not have a <dict> or </plist> tag. Please add this to your file.")
    else
      Except.ok (strSplice contents plistEndIndex.toNat (insertionContents targetFonts))
  else
    Except.ok (strSplice contents (dictIndex.toNat + ("<dict>" : String).length)
      (insertionContents targetFonts))

/-- One iteration of the `updateInfoPlist` loop: create the plist file
(with intermediate directories) when missing, then read, splice, and write
back.  Returns the write events, the new filesystem, and the thrown error
when splicing fails. -/
def updateInfoPlistForTarget (projectRoot : String) (fs : FSState)
    (targetName : String) (targetFonts : List Font) :
    List Event × FSState × Except String Unit :=
  let plistFilePath := plistPath projectRoot targetName
  let created : List Event × FSState :=
    match fsRead fs plistFilePath with
    | some _ => ([], fs)
    | none =>
        let directory := dirname plistFilePath
        let fsA := if List.contains fs.dirs directory then fs else mkdirRecursive fs directory
        ([Event.plistWrite plistFilePath defaultInfoPlist],
         fsWrite fsA plistFilePath defaultInfoPlist)
  let contents := (fsRead created.2 plistFilePath).getD ""
  match patchPlistContent plistFilePath contents targetFonts with
  | Except.error e => (created.1, created.2, Except.error e)
  | Except.ok newPlistContents =>
      (created.1 ++ [Event.plistWrite plistFilePath newPlistContents],
       fsWrite created.2 plistFilePath newPlistContents,
       Except.ok ())

/-- The `for (const targetName in grouped)` loop of `updateInfoPlist`,
short-circuiting on the first thrown error. -/
def updateInfoPlistLoop (projectRoot : String) (fs : FSState) :
    FontsGrouped → List Event × FSState × Except String Unit
  | [] => ([], fs, Except.ok ())
  | (targetName, targetFonts) :: rest =>
      match updateInfoPlistForTarget projectRoot fs targetName targetFonts with
      | (evs, fs1, Except.error e) => (evs, fs1, Except.error e)
      | (evs, fs1, Except.ok _) =>
          let r := updateInfoPlistLoop projectRoot fs1 rest
          (evs ++ r.1, r.2.1, r.2.2)

/-- Translation of `updateInfoPlist`: iterate the grouped targets in key order. -/
def updateInfoPlist (config : Config) (fs : FSState) (grouped : FontsGrouped) :
    List Event × FSState × Except String Unit :=
  updateInfoPlistLoop config.projectRoot fs grouped

/-- Translation of `copyFontFiles`: check that `srcFolder` (under the project root) is a
directory — `lstatSync` throws when the path is missing and the explicit
check throws when it is not a directory — then create `ios/Fonts` when
absent and recursively copy the source directory into it. -/
def copyFontFiles (fs : FSState) (config : Config) (options : Options) :
    List Event × FSState × Except String Unit :=
  let sourceDir := pathJoin config.projectRoot options.srcFolder
  let targetDir := pathJoin (pathJoin config.projectRoot "ios") "Fonts"
  if !(List.contains fs.dirs sourceDir || (fsRead fs sourceDir).isSome) then
    ([], fs, Except.error ("ENOENT: no such file or directory, lstat " ++ sourceDir))
  else if !(List.contains fs.dirs sourceDir) then
    ([], fs, Except.error
      "The provided sourceDir is not a directory. This value must be the directory of your font files.")
  else
    let fs1 := if List.contains fs.dirs targetDir then fs else mkdirRecursive fs targetDir
    ([Event.copy sourceDir targetDir], copyDir fs1 sourceDir targetDir, Except.ok ())

/-- The `for (const target of targets)` loop of `updateXcodeProject`,
short-circuiting on the first thrown error while threading `config`. -/
def addFontsLoop (grouped : FontsGrouped) (config : Config) :
    List String → List Event × Except String Config
  | [] => ([], Except.ok config)
  | target :: rest =>
      match addFontToXcodeProj config target (bucketGet grouped target) with
      | (evs, Except.error e) => (evs, Except.error e)
      | (evs, Except.ok config1) =>
          let r := addFontsLoop grouped config1 rest
          (evs ++ r.1, r.2)

/-- Translation of `updateXcodeProject`: copy the font files once, then register the bucket of each
target against the project. -/
def updateXcodeProject (fs : FSState) (config : Config) (options : Options)
    (grouped : FontsGrouped) : List Event × FSState × Except String Config :=
  let targets := grouped.map (·.1)
  match copyFontFiles fs config options with
  | (evs, fs1, Except.error e) => (evs, fs1, Except.error e)
  | (evs, fs1, Except.ok _) =>
      let r := addFontsLoop grouped config targets
      (evs ++ r.1, fs1, r.2)

/-- Translation of `injectExpoNativeFontsIOS`: the pipeline entry — filter, group, patch
the `Info.plist` of every grouped target, then copy the assets and register the
fonts on the project.  Returns the event trace, the final filesystem, and
the resulting config or the first thrown error. -/
def injectExpoNativeFontsIOS (fs : FSState) (config : Config) (options : Options) :
    List Event × FSState × Except String Config :=
  let iosFonts := getIOSFonts options
  match groupByTarget iosFonts with
  | Except.error e => ([Event.filter], fs, Except.error e)
  | Except.ok grouped =>
      match updateInfoPlist config fs grouped with
      | (evs1, fs1, Except.error e) =>
          (Event.filter :: Event.group :: evs1, fs1, Except.error e)
      | (evs1, fs1, Except.ok _) =>
          match updateXcodeProject fs1 config options grouped with
          | (evs2, fs2, r) =>
              (Event.filter :: Event.group :: (evs1 ++ evs2), fs2, r)

/-! ## Specification-side definitions and stage ranks -/

/-- Specification-side derived display name, following the words of the
spec: the final path component of `filePath` with the TRAILING extension
removed.  To be compared with the translation `getFontName`. -/
def specDerivedName (filePath : String) : String :=
  let b := basename filePath
  let e := extname filePath
  String.mk (b.data.take (b.length - e.length))

/-- Pipeline stage of an event: filter, group, plist patching, copy,
registration (resolution and registration calls interleave per target and
share a rank). -/
def stageRank : Event → Nat
  | Event.filter => 0
  | Event.group => 1
  | Event.plistWrite _ _ => 2
  | Event.copy _ _ => 3
  | Event.resolve _ => 4
  | Event.register _ _ => 4

/-- The portion of `defaultInfoPlist` up to and including `<dict>`. -/
def defaultInfoPlistHead : String :=
  "<?xml version=\"1.0\" encoding=\"UTF-8\"?>\n            <!DOCTYPE plist PUBLIC \"-//Apple//DTD PLIST 1.0//EN\" \"http://www.apple.com/DTDs/PropertyList-1.0.dtd\">\n            <plist version=\"1.0\">\n            <dict>"

/-- The portion of `defaultInfoPlist` after the first `<dict>`. -/
def defaultInfoPlistTail : String :=
  "\n            </dict>\n            </plist>\n            "

/-! ## Concrete instances for witnesses and counterexamples -/

/-- A font declared for target A only. -/
def demoFontOne : Font := { filePath := "f1.ttf", targets := some ["A"] }

/-- A second font declared for target A only. -/
def demoFontTwo : Font := { filePath := "f2.ttf", targets := some ["A"] }

/-- A font declared for targets A and B. -/
def demoFontShared : Font := { filePath := "shared.ttf", targets := some ["A", "B"] }

/-- A font declared for target B only. -/
def demoFontBOnly : Font := { filePath := "b.ttf", targets := some ["B"] }

/-- A font whose targets list is present but EMPTY. -/
def demoFontEmptyTargets : Font := { filePath := "empty.ttf", targets := some [] }

/-- A font whose targets field is absent. -/
def demoFontNoTargets : Font := { filePath := "x.ttf", name := some "MyFont" }

/-- A project with a single native target named A. -/
def demoProject : XcodeProject := { nativeTargets := [("u1", { name := "A" })], resources := [] }

/-- A config rooted at `r` over `demoProject`. -/
def demoConfig : Config := { projectRoot := "r", modResults := demoProject }

/-- A config over a project with NO native targets. -/
def demoConfigNoTargets : Config :=
  { projectRoot := "r", modResults := { nativeTargets := [], resources := [] } }

/-- Registration arguments for `demoFontOne` on target uuid `u1`. -/
def demoArgsOne : ResourceArgs :=
  { filepath := "Fonts/f1.ttf", groupName := "Resources", isBuildFile := true, targetUuid := "u1" }

/-- Registration arguments for `demoFontTwo` on target uuid `u1`. -/
def demoArgsTwo : ResourceArgs :=
  { filepath := "Fonts/f2.ttf", groupName := "Resources", isBuildFile := true, targetUuid := "u1" }

/-- A filesystem holding an existing plist for target A and a font source
directory `r/f` with one file. -/
def demoFS : FSState :=
  { files := [("r/ios/A/Info.plist", "<dict></dict>"), ("r/f/x.ttf", "XX")], dirs := ["r/f"] }

/-- Options declaring one font on target A with source folder `f`. -/
def demoOptions : Options := { fonts := [{ filePath := "x.ttf", targets := some ["A"] }], srcFolder := "f" }

/-- Options whose single font lacks the targets field. -/
def demoOptionsNoTargets : Options := { fonts := [demoFontNoTargets], srcFolder := "f" }

/-- Options whose single font has an EMPTY targets list. -/
def demoOptionsEmptyTargets : Options := { fonts := [demoFontEmptyTargets], srcFolder := "f" }

/-- The font named font1.ttf of the plist-patch example. -/
def demoPlistFontOne : Font := { filePath := "font1.ttf", targets := some ["A"] }

/-- The font named font2.ttf of the plist-patch example. -/
def demoPlistFontTwo : Font := { filePath := "font2.ttf", targets := some ["A"] }

/-- A project with two native targets sharing the name A. -/
def demoProjectDup : XcodeProject :=
  { nativeTargets := [("u1", { name := "A" }), ("u2", { name := "A" })], resources := [] }

/-- A filesystem whose plist for target A has neither marker. -/
def demoFSBadPlist : FSState :=
  { files := [("r/ios/A/Info.plist", "nope")], dirs := [] }

/-! ## Helper lemmas -/

theorem strEq_of_data {s t : String} (h : s.data = t.data) : s = t :=
  congrArg String.mk h

theorem strData_append (a b : String) : (a ++ b).data = a.data ++ b.data := rfl

theorem fsWrite_dirs (fs : FSState) (p c : String) : (fsWrite fs p c).dirs = fs.dirs := by
  unfold fsWrite
  split <;> rfl

theorem mkdirRecursive_files (fs : FSState) (d : String) :
    (mkdirRecursive fs d).files = fs.files := rfl

theorem fsRead_mkdirRecursive (fs : FSState) (d p : String) :
    fsRead (mkdirRecursive fs d) p = fsRead fs p := rfl

theorem find?_writeMap_self (l : List (String × String)) (p c : String)
    (h : l.any (fun e => e.1 == p) = true) :
    (l.map (fun e => if e.1 == p then (p, c) else e)).find? (fun e => e.1 == p) = some (p, c) := by
  induction l with
  | nil => simp at h
  | cons e t ih =>
    by_cases he : (e.1 == p) = true
    · simp only [List.map_cons, he, if_true]
      exact List.find?_cons_of_pos _ (by simp)
    · simp only [List.any_cons, he, Bool.false_or] at h
      simp only [List.map_cons, he, if_false]
      rw [List.find?_cons_of_neg _ (by simp [he])]
      exact ih h

theorem find?_appendOne_self (l : List (String × String)) (p c : String)
    (h : l.any (fun e => e.1 == p) = false) :
    (l ++ [(p, c)]).find? (fun e => e.1 == p) = some (p, c) := by
  induction l with
  | nil =>
    simp only [List.nil_append]
    exact List.find?_cons_of_pos _ (by simp)
  | cons e t ih =>
    simp only [List.any_cons, Bool.or_eq_false_iff] at h
    simp only [List.cons_append]
    rw [List.find?_cons_of_neg _ (by simp [h.1])]
    exact ih h.2

theorem find?_writeMap_ne (l : List (String × String)) (p c q : String)
    (h : (p == q) = false) :
    (l.map (fun e => if e.1 == p then (p, c) else e)).find? (fun e => e.1 == q) =
      l.find? (fun e => e.1 == q) := by
  induction l with
  | nil => rfl
  | cons e t ih =>
    by_cases he : (e.1 == p) = true
    · have he1 : e.1 = p := eq_of_beq he
      simp only [List.map_cons, he, if_true]
      rw [List.find?_cons_of_neg _ (by simp_all),
        List.find?_cons_of_neg _ (by simp [he1]; simp_all)]
      exact ih
    · simp only [List.map_cons, he, if_false]
      by_cases heq : (e.1 == q) = true
      · rw [List.find?_cons_of_pos _ (by simpa using heq),
          List.find?_cons_of_pos _ (by simpa using heq)]
        simp
      · rw [List.find?_cons_of_neg _ (by simpa using heq),
          List.find?_cons_of_neg _ (by simpa using heq)]
        exact ih

theorem find?_appendOne_ne (l : List (String × String)) (p c q : String)
    (h : (p == q) = false) :
    (l ++ [(p, c)]).find? (fun e => e.1 == q) = l.find? (fun e => e.1 == q) := by
  induction l with
  | nil =>
    simp only [List.nil_append]
    rw [List.find?_cons_of_neg _ (by simp_all)]
  | cons e t ih =>
    simp only [List.cons_append]
    by_cases heq : (e.1 == q) = true
    · rw [List.find?_cons_of_pos _ (by simpa using heq),
        List.find?_cons_of_pos _ (by simpa using heq)]
    · rw [List.find?_cons_of_neg _ (by simpa using heq),
        List.find?_cons_of_neg _ (by simpa using heq)]
      exact ih

theorem fsRead_fsWrite_self (fs : FSState) (p c : String) :
    fsRead (fsWrite fs p c) p = some c := by
  unfold fsRead fsWrite
  by_cases h : fs.files.any (fun e => e.1 == p) = true
  · simp only [h, if_true]
    rw [find?_writeMap_self fs.files p c h]
    rfl
  · simp only [Bool.not_eq_true] at h
    simp only [h, Bool.false_eq_true, if_false]
    rw [find?_appendOne_self fs.files p c h]
    rfl

theorem fsRead_fsWrite_ne (fs : FSState) (p c q : String) (h : q ≠ p) :
    fsRead (fsWrite fs p c) q = fsRead fs q := by
  have hpq : (p == q) = false := by
    simp only [beq_eq_false_iff_ne, ne_eq]
    exact fun hc => h hc.symm
  unfold fsRead fsWrite
  split
  · rw [find?_writeMap_ne fs.files p c q hpq]
  · rw [find?_appendOne_ne fs.files p c q hpq]

theorem strMk_data (s : String) : String.mk s.data = s := rfl

theorem strLength_data (s : String) : s.length = s.data.length := rfl

theorem listIndexOf?_nil_pat (l : List Char) : listIndexOf? l [] = some 0 := by
  cases l <;> rfl

theorem listIndexOf?_bound (hay pat : List Char) (i : Nat)
    (h : listIndexOf? hay pat = some i) : i + pat.length ≤ hay.length := by
  induction hay generalizing i with
  | nil =>
    unfold listIndexOf? at h
    by_cases hp : pat.isEmpty = true
    · rw [if_pos hp] at h
      have : pat = [] := List.isEmpty_iff.mp hp
      simp_all
    · rw [if_neg hp] at h
      exact absurd h (by simp)
  | cons c t ih =>
    unfold listIndexOf? at h
    by_cases hp : pat.isPrefixOf (c :: t) = true
    · rw [if_pos hp] at h
      have hi : i = 0 := by simpa using h.symm
      have hle : pat.length ≤ (c :: t).length :=
        (List.isPrefixOf_iff_prefix.mp hp).length_le
      omega
    · rw [if_neg hp] at h
      rcases Option.map_eq_some'.mp h with ⟨j, hj, hij⟩
      have := ih j hj
      simp only [List.length_cons]
      omega

theorem groupFoldlM_error (fonts : List Font) (font : Font)
    (h : fonts.find? (fun f => f.targets.isNone) = some font) :
    ∀ g : FontsGrouped, fonts.foldlM groupStep g =
      Except.error ("Targets is required for iOS font " ++ jsOr font.name font.filePath) := by
  induction fonts with
  | nil => simp at h
  | cons f t ih =>
    intro g
    by_cases hf : f.targets.isNone = true
    · have hfind : List.find? (fun f => f.targets.isNone) (f :: t) = some f :=
        List.find?_cons_of_pos t hf
      rw [hfind] at h
      have hfont : f = font := by simpa using h
      subst hfont
      have ht : f.targets = none := Option.isNone_iff_eq_none.mp hf
      simp only [List.foldlM_cons, groupStep, ht]
      rfl
    · have hfind : List.find? (fun f => f.targets.isNone) (f :: t) =
          List.find? (fun f => f.targets.isNone) t :=
        List.find?_cons_of_neg t hf
      rw [hfind] at h
      simp only [Option.isNone_iff_eq_none, Bool.not_eq_true] at hf
      rcases ht : f.targets with _ | ts
      · rw [ht] at hf
        simp at hf
      · simp only [List.foldlM_cons, groupStep, ht]
        exact ih h _

/-! ## Claim C2 -/

/-- C2 (counterexample): a font whose `targets` field is PRESENT but EMPTY
does not make the grouping step fail — the JavaScript check `!targets` is
false for an empty array, so grouping succeeds (with no bucket), and the
whole pipeline even completes successfully, contradicting the claim that an
empty targets list fails with a configuration error. -/
theorem groupByTarget_empty_targets_no_failure :
    groupByTarget [demoFontEmptyTargets] = Except.ok ([] : FontsGrouped) ∧
    (injectExpoNativeFontsIOS demoFS demoConfig demoOptionsEmptyTargets).2.2 =
      Except.ok demoConfig :=
  ⟨rfl, rfl⟩

/-- C2 (amended): for every font declaration selected for this platform
whose `targets` field is ABSENT, the pipeline fails with the configuration
error identifying the font by its non-empty `name` (falling back to
`filePath`), and the failure happens before any filesystem mutation or
project mutation: the returned state is the input state, the trace holds no
write, copy, or registration event, and no config is produced.  (A present
but empty `targets` list does not fail; the font is silently dropped.) -/
theorem pipeline_missing_targets_aborts (fs : FSState) (config : Config)
    (options : Options) (font : Font)
    (h : (getIOSFonts options).find? (fun f => f.targets.isNone) = some font) :
    injectExpoNativeFontsIOS fs config options =
      ([Event.filter], fs,
        Except.error ("Targets is required for iOS font " ++ jsOr font.name font.filePath)) := by
  unfold injectExpoNativeFontsIOS
  dsimp only
  rw [show groupByTarget (getIOSFonts options) =
    Except.error ("Targets is required for iOS font " ++ jsOr font.name font.filePath) from
      groupFoldlM_error (getIOSFonts options) font h []]

/-- C2 (witness): the amended theorem applied to a concrete options value
whose sole font lacks `targets`. -/
theorem pipeline_missing_targets_aborts_witness :
    injectExpoNativeFontsIOS demoFS demoConfig demoOptionsNoTargets =
      ([Event.filter], demoFS, Except.error "Targets is required for iOS font MyFont") :=
  pipeline_missing_targets_aborts demoFS demoConfig demoOptionsNoTargets demoFontNoTargets rfl

/-! ## Claim C1 -/

/-- C1 (code evaluated at the failing input): under the value-returning
registration contract of the spec, the loop of `addFontToXcodeProj` is NOT
a fold of the registration capability.  Every call receives the project
object captured at the start of the target (the source passes the stale
`project`, not the updated `config.modResults`), so with two fonts the
final project holds only the LAST registration (third conjunct = what the
code produces), whereas the fold of the capability accumulates both
(second conjunct = what the claim requires). -/
theorem addFontToXcodeProj_not_state_threaded :
    (addFontToXcodeProj demoConfig "A" [demoFontOne, demoFontTwo]).2 =
      Except.ok { demoConfig with modResults := addResourceFileToGroup demoArgsTwo demoProject } ∧
    (List.foldl (fun p a => addResourceFileToGroup a p) demoProject
      [demoArgsOne, demoArgsTwo]).resources = [demoArgsOne, demoArgsTwo] ∧
    (addResourceFileToGroup demoArgsTwo demoProject).resources = [demoArgsTwo] :=
  ⟨rfl, rfl, rfl⟩

/-! ## Claim C4 -/

theorem insertionKeys_data (fonts : List Font) (s : String) :
    (fonts.foldl (fun contents font =>
        contents ++ "\n            <string>" ++ basename font.filePath ++ "</string>") s).data =
      s.data ++ (fonts.map (fun f =>
        ("\n            <string>" ++ basename f.filePath ++ "</string>").data)).flatten := by
  induction fonts generalizing s with
  | nil => simp
  | cons f t ih =>
    simp only [List.foldl_cons, List.map_cons, List.flatten_cons]
    rw [ih]
    simp [strData_append, List.append_assoc]

/-- C4: the fragment spliced into a plist file is the single `UIAppFonts`
key and array wrapper around EXACTLY one `<string>` entry per font of the
bucket, each entry carrying the base file name of the font (directories
stripped), in bucket order (first conjunct); and patching the document
`<dict></dict>` places the fragment immediately after the opening `<dict>`
(second conjunct), listing font1.ttf then font2.ttf (third conjunct). -/
theorem insertionContents_entries (fonts : List Font) :
    (insertionContents fonts).data =
      ("<key>UIAppFonts</key>\n        <array>\n        " : String).data ++
        (fonts.map (fun f =>
          ("\n            <string>" ++ basename f.filePath ++ "</string>").data)).flatten ++
        ("\n        </array>" : String).data ∧
    patchPlistContent (plistPath "root" "A") "<dict></dict>"
        [demoPlistFontOne, demoPlistFontTwo] =
      Except.ok ("<dict>" ++ insertionContents [demoPlistFontOne, demoPlistFontTwo] ++ "</dict>") ∧
    insertionContents [demoPlistFontOne, demoPlistFontTwo] =
      "<key>UIAppFonts</key>\n        <array>\n        \n            <string>font1.ttf</string>\n            <string>font2.ttf</string>\n        </array>" := by
  refine ⟨?_, by rfl, by decide⟩
  unfold insertionContents insertionKeys
  simp only [strData_append, insertionKeys_data, List.nil_append, List.append_assoc]

/-! ## Claim C9 -/

/-- C9 (counterexample): with `filePath = a.ttfb.ttf` and no `name`, the
code removes the FIRST occurrence of the extension substring and yields
`ab.ttf`, while the claimed trailing-extension strip yields `a.ttfb`; and a
present-but-EMPTY `name` is not returned unchanged — the code falls back to
the derived name. -/
theorem getFontName_not_trailing_strip :
    getFontName { filePath := "a.ttfb.ttf" } = "ab.ttf" ∧
    specDerivedName "a.ttfb.ttf" = "a.ttfb" ∧
    ("ab.ttf" : String) ≠ "a.ttfb" ∧
    getFontName { filePath := "a.ttf", name := some "" } = "a" := by
  refine ⟨by decide, by decide, by decide, by decide⟩

/-- C9 (amended): a present NON-EMPTY `name` is returned unchanged; when
`name` is absent, the derived name equals the final path component with the
trailing extension removed PROVIDED the extension substring occurs in the
base name only at the trailing position (or there is no extension) — in
general the code removes the first occurrence of the extension substring. -/
theorem getFontName_amended :
    (∀ (f : Font) (s : String), f.name = some s → s ≠ "" → getFontName f = s) ∧
    (∀ f : Font, f.name = none →
      (extname f.filePath = "" ∨
        listIndexOf? (basename f.filePath).data (extname f.filePath).data =
          some ((basename f.filePath).length - (extname f.filePath).length)) →
      getFontName f = specDerivedName f.filePath) := by
  constructor
  · intro f s h hs
    simp only [getFontName, h]
    rw [if_neg (by simpa using hs)]
  · intro f h hcase
    simp only [getFontName, h, specDerivedName]
    rcases hcase with he | hidx
    · rw [he]
      unfold jsReplaceFirst
      rw [show ("" : String).data = [] from rfl, listIndexOf?_nil_pat]
      dsimp only
      rw [show ("" : String).length = 0 from rfl]
      simp only [List.take_zero, List.nil_append, Nat.zero_add, Nat.sub_zero, List.drop_zero]
      rw [strLength_data, List.take_length]
    · have hidx' := hidx
      simp only [strLength_data] at hidx'
      have hb := listIndexOf?_bound _ _ _ hidx'
      have heq : (basename f.filePath).data.length - (extname f.filePath).data.length +
          (extname f.filePath).data.length = (basename f.filePath).data.length := by
        omega
      unfold jsReplaceFirst
      rw [hidx']
      dsimp only
      rw [show (extname f.filePath).length = (extname f.filePath).data.length from rfl,
        heq, List.drop_length]
      simp only [List.append_nil, strLength_data]

theorem ofNat_beq_negOne (i : Nat) : (((i : Nat) : Int) == -1) = false := by
  simp only [beq_eq_false_iff_ne, ne_eq]
  omega

theorem negOne_beq_negOne : (((-1 : Int)) == -1) = true := rfl

theorem jsIndexOf_of_some (s pat : String) (i : Nat)
    (h : listIndexOf? s.data pat.data = some i) : jsIndexOf s pat = (i : Int) := by
  unfold jsIndexOf
  rw [h]

theorem jsIndexOf_of_none (s pat : String)
    (h : listIndexOf? s.data pat.data = none) : jsIndexOf s pat = -1 := by
  unfold jsIndexOf
  rw [h]

/-! ## Claim C5 -/

/-- C5: insertion-point selection of the plist patch.  When the first
`<dict>` marker occurs at index `i`, the fragment is spliced at `i + 6`,
immediately after the marker (first conjunct); when `<dict>` is absent and
the first `</plist>` occurs at index `j`, the fragment is spliced at `j`,
immediately before it (second conjunct); when both markers are absent the
patch throws the format error naming the file, and the per-target step
leaves the filesystem untouched (third conjunct). -/
theorem patchPlistContent_insertion_points :
    (∀ (plistFilePath contents : String) (fonts : List Font) (i : Nat),
        listIndexOf? contents.data ("<dict>" : String).data = some i →
        patchPlistContent plistFilePath contents fonts =
          Except.ok (strSplice contents (i + 6) (insertionContents fonts))) ∧
    (∀ (plistFilePath contents : String) (fonts : List Font) (j : Nat),
        listIndexOf? contents.data ("<dict>" : String).data = none →
        listIndexOf? contents.data ("</plist>" : String).data = some j →
        patchPlistContent plistFilePath contents fonts =
          Except.ok (strSplice contents j (insertionContents fonts))) ∧
    (∀ (root targetName contents : String) (fonts : List Font) (fs : FSState),
        listIndexOf? contents.data ("<dict>" : String).data = none →
        listIndexOf? contents.data ("</plist>" : String).data = none →
        patchPlistContent (plistPath root targetName) contents fonts =
          Except.error ("Your Info.plist file at " ++ plistPath root targetName ++
            " does not have a <dict> or </plist> tag. Please add this to your file.") ∧
        (fsRead fs (plistPath root targetName) = some contents →
          updateInfoPlistForTarget root fs targetName fonts =
            ([], fs, Except.error ("Your Info.plist file at " ++ plistPath root targetName ++
              " does not have a <dict> or </plist> tag. Please add this to your file.")))) := by
  refine ⟨?_, ?_, ?_⟩
  · intro plistFilePath contents fonts i h
    unfold patchPlistContent
    rw [jsIndexOf_of_some _ _ _ h]
    simp only [ofNat_beq_negOne, Bool.false_eq_true, if_false, Int.toNat_ofNat]
    rfl
  · intro plistFilePath contents fonts j hd hp
    unfold patchPlistContent
    rw [jsIndexOf_of_none _ _ hd, jsIndexOf_of_some _ _ _ hp]
    simp only [negOne_beq_negOne, if_true, ofNat_beq_negOne, Bool.false_eq_true, if_false,
      Int.toNat_ofNat]
  · intro root targetName contents fonts fs hd hp
    have hpatch : patchPlistContent (plistPath root targetName) contents fonts =
        Except.error ("Your Info.plist file at " ++ plistPath root targetName ++
          " does not have a <dict> or </plist> tag. Please add this to your file.") := by
      unfold patchPlistContent
      rw [jsIndexOf_of_none _ _ hd, jsIndexOf_of_none _ _ hp]
      simp only [negOne_beq_negOne, if_true]
    refine ⟨hpatch, fun hread => ?_⟩
    unfold updateInfoPlistForTarget
    simp only [hread, Option.getD_some, hpatch]

/-- C5 (witness): the three insertion-point cases at concrete documents —
a dictionary document, a document with only a closing plist tag, and a
document with neither marker (for an existing file, which is then left
unmodified). -/
theorem patchPlistContent_insertion_points_witness :
    patchPlistContent "p" "<dict></dict>" [] =
      Except.ok (strSplice "<dict></dict>" 6 (insertionContents [])) ∧
    patchPlistContent "p" "<plist></plist>" [] =
      Except.ok (strSplice "<plist></plist>" 7 (insertionContents [])) ∧
    updateInfoPlistForTarget "r" demoFSBadPlist "A" [] =
      ([], demoFSBadPlist,
        Except.error ("Your Info.plist file at " ++ plistPath "r" "A" ++
          " does not have a <dict> or </plist> tag. Please add this to your file.")) := by
  refine ⟨?_, ?_, ?_⟩
  · exact patchPlistContent_insertion_points.1 "p" "<dict></dict>" [] 0 (by decide)
  · exact patchPlistContent_insertion_points.2.1 "p" "<plist></plist>" [] 7
      (by decide) (by decide)
  · exact (patchPlistContent_insertion_points.2.2 "r" "A" "nope" [] demoFSBadPlist
      (by decide) (by decide)).2 (by decide)

/-! ## Claim C6 -/

theorem find?_name_append_first (pre : List (String × PBXTarget)) (uuid : String)
    (target : PBXTarget) (post : List (String × PBXTarget)) (name : String)
    (hpre : ∀ e ∈ pre, e.2.name ≠ name) (hname : target.name = name) :
    List.find? (fun (x : String × PBXTarget) => x.2.name == name)
      (pre ++ (uuid, target) :: post) = some (uuid, target) := by
  induction pre with
  | nil =>
    simp only [List.nil_append]
    exact List.find?_cons_of_pos post (by simpa using hname)
  | cons e pre' ih =>
    simp only [List.cons_append]
    rw [List.find?_cons_of_neg _ (by simpa using hpre e (by simp))]
    exact ih (fun x hx => hpre x (by simp [hx]))

/-- C6: target resolution scans the native-target section for an entry
whose name equals the requested name under case-sensitive string equality
(first conjunct: a resolved entry carries exactly the requested name;
second conjunct: the FIRST matching entry wins — any entry preceded only by
non-matching entries is the result); when no entry matches, the
registration step for that target throws the configuration error naming the
target and performs no registration call: its trace is the bare resolution
event with no register event, and no config is produced (third conjunct). -/
theorem getPBXTargetByName_resolution :
    (∀ (project : XcodeProject) (name uuid : String) (target : PBXTarget),
        getPBXTargetByName project name = some (uuid, target) → target.name = name) ∧
    (∀ (project : XcodeProject) (name uuid : String) (target : PBXTarget)
        (pre post : List (String × PBXTarget)),
        project.nativeTargets = pre ++ (uuid, target) :: post →
        (∀ e ∈ pre, e.2.name ≠ name) →
        target.name = name →
        getPBXTargetByName project name = some (uuid, target)) ∧
    (∀ (config : Config) (targetName : String) (fonts : List Font),
        getPBXTargetByName config.modResults targetName = none →
        addFontToXcodeProj config targetName fonts =
          ([Event.resolve targetName],
           Except.error ("expo-native-fonts:: cannot find target " ++ targetName ++
             ". Has the target been set up correctly?"))) := by
  refine ⟨?_, ?_, ?_⟩
  · intro project name uuid target h
    unfold getPBXTargetByName at h
    exact eq_of_beq (by simpa using List.find?_some h)
  · intro project name uuid target pre post hsec hpre hname
    unfold getPBXTargetByName
    rw [hsec]
    exact find?_name_append_first pre uuid target post name hpre hname
  · intro config targetName fonts h
    unfold addFontToXcodeProj
    dsimp only
    rw [h]

/-- C6 (witness): with duplicate targets named A the FIRST entry (uuid u1)
is resolved; and against a project with no targets, registration for A
throws the configuration error naming A after the bare resolve event. -/
theorem getPBXTargetByName_resolution_witness :
    getPBXTargetByName demoProjectDup "A" = some ("u1", { name := "A" }) ∧
    addFontToXcodeProj demoConfigNoTargets "A" [demoFontOne] =
      ([Event.resolve "A"],
        Except.error "expo-native-fonts:: cannot find target A. Has the target been set up correctly?") := by
  constructor
  · exact getPBXTargetByName_resolution.2.1 demoProjectDup "A" "u1" { name := "A" }
      [] [("u2", { name := "A" })] rfl (by simp) rfl
  · exact getPBXTargetByName_resolution.2.2 demoConfigNoTargets "A" [demoFontOne] (by decide)

/-! ## Claim C7 -/

theorem find?_pred_of_eq_some {α : Type} (p : α → Bool) (l : List α) (a : α)
    (h : List.find? p l = some a) : p a = true :=
  List.find?_some h

theorem find?_map_key {β : Type} (g : List (String × β)) (h : β → β) (t src : String) :
    List.find? (fun (e : String × β) => e.1 == t)
        (g.map (fun e => if e.1 == src then (e.1, h e.2) else e)) =
      (List.find? (fun (e : String × β) => e.1 == t) g).map
        (fun e => if e.1 == src then (e.1, h e.2) else e) := by
  induction g with
  | nil => rfl
  | cons e rest ih =>
    simp only [List.map_cons]
    by_cases he : (e.1 == t) = true
    · have h1 : List.find? (fun (x : String × β) => x.1 == t)
          ((if e.1 == src then (e.1, h e.2) else e) ::
            rest.map (fun x => if x.1 == src then (x.1, h x.2) else x)) =
          some (if e.1 == src then (e.1, h e.2) else e) :=
        List.find?_cons_of_pos _ (by split <;> simpa using he)
      have h2 : List.find? (fun (x : String × β) => x.1 == t) (e :: rest) = some e :=
        List.find?_cons_of_pos _ he
      rw [h1, h2]
      rfl
    · have h1 : List.find? (fun (x : String × β) => x.1 == t)
          ((if e.1 == src then (e.1, h e.2) else e) ::
            rest.map (fun x => if x.1 == src then (x.1, h x.2) else x)) =
          List.find? (fun (x : String × β) => x.1 == t)
            (rest.map (fun x => if x.1 == src then (x.1, h x.2) else x)) :=
        List.find?_cons_of_neg _ (by split <;> simpa using he)
      have h2 : List.find? (fun (x : String × β) => x.1 == t) (e :: rest) =
          List.find? (fun (x : String × β) => x.1 == t) rest :=
        List.find?_cons_of_neg _ (by simpa using he)
      rw [h1, h2, ih]

theorem bucketGet_bucketAdd (g : FontsGrouped) (src : String) (f : Font) (t : String) :
    bucketGet (bucketAdd g src f) t =
      if src == t then bucketGet g t ++ [f] else bucketGet g t := by
  unfold bucketAdd bucketGet
  by_cases hany : (List.any g fun e => e.1 == src) = true
  · rw [if_pos hany, find?_map_key g (fun b => b ++ [f]) t src]
    rcases hfind : List.find? (fun (e : String × List Font) => e.1 == t) g with _ | e
    · by_cases hst : (src == t) = true
      · exfalso
        have hs : src = t := eq_of_beq hst
        rcases List.any_eq_true.mp hany with ⟨x, hx, hpx⟩
        have hnone := List.find?_eq_none.mp hfind x hx
        subst hs
        exact hnone hpx
      · simp [hst]
    · have hpe := find?_pred_of_eq_some (fun (x : String × List Font) => x.1 == t) g e hfind
      have he1 : e.1 = t := eq_of_beq (by simpa using hpe)
      by_cases hst : (src == t) = true
      · have hs : src = t := eq_of_beq hst
        rw [if_pos hst]
        have hcond : (e.1 == src) = true := by
          rw [he1, hs]
          exact beq_self_eq_true t
        simp [eq_of_beq hcond]
      · have hcond : ¬ ((e.1 == src) = true) := by
          intro hc
          have h1 : e.1 = src := eq_of_beq hc
          rw [he1] at h1
          exact hst (beq_iff_eq.mpr h1.symm)
        rw [if_neg hst]
        simp only [Option.map_some']
        rw [if_neg hcond]
  · rw [if_neg hany, List.find?_append]
    rcases hfind : List.find? (fun (e : String × List Font) => e.1 == t) g with _ | e
    · simp only [Option.none_or]
      by_cases hst : (src == t) = true
      · have h1 : List.find? (fun (e : String × List Font) => e.1 == t) [(src, [f])] =
            some (src, [f]) :=
          List.find?_cons_of_pos _ (by simpa using hst)
        rw [h1, if_pos hst]
        rfl
      · have h1 : List.find? (fun (e : String × List Font) => e.1 == t) [(src, [f])] =
            List.find? (fun (e : String × List Font) => e.1 == t) [] :=
          List.find?_cons_of_neg _ (by simpa using hst)
        rw [h1, if_neg hst]
        rfl
    · by_cases hst : (src == t) = true
      · exfalso
        have hs : src = t := eq_of_beq hst
        have hpe := find?_pred_of_eq_some (fun (x : String × List Font) => x.1 == t) g e hfind
        have hmem : e ∈ g := List.mem_of_find?_eq_some hfind
        have : (List.any g fun x => x.1 == src) = true :=
          List.any_eq_true.mpr ⟨e, hmem, by simpa [hs] using hpe⟩
        exact hany this
      · rw [if_neg hst]
        rfl

theorem bucketGet_targetsFold (ts : List String) (g : FontsGrouped) (f : Font) (t : String) :
    bucketGet (ts.foldl (fun g t' => bucketAdd g t' f) g) t =
      bucketGet g t ++ (ts.filter (fun x => x == t)).map (fun _ => f) := by
  induction ts generalizing g with
  | nil => simp
  | cons src ts' ih =>
    simp only [List.foldl_cons]
    rw [ih, bucketGet_bucketAdd]
    by_cases hst : (src == t) = true
    · rw [if_pos hst, List.filter_cons, if_pos hst, List.map_cons, List.append_assoc]
      rfl
    · rw [if_neg hst, List.filter_cons, if_neg hst]

theorem groupFoldlM_ok (fonts : List Font) :
    ∀ (g0 g : FontsGrouped), fonts.foldlM groupStep g0 = Except.ok g →
      ∀ t, bucketGet g t = bucketGet g0 t ++
        fonts.flatMap (fun f =>
          ((f.targets.getD []).filter (fun x => x == t)).map (fun _ => f)) := by
  induction fonts with
  | nil =>
    intro g0 g h t
    simp only [List.foldlM_nil] at h
    cases h
    simp
  | cons f rest ih =>
    intro g0 g h t
    rcases ht : f.targets with _ | ts
    · simp only [List.foldlM_cons, groupStep, ht] at h
      exact Except.noConfusion h
    · simp only [List.foldlM_cons, groupStep, ht] at h
      have h' : rest.foldlM groupStep (ts.foldl (fun g t' => bucketAdd g t' f) g0) =
          Except.ok g := h
      rw [ih _ _ h' t, bucketGet_targetsFold]
      simp [ht, List.append_assoc]

/-- C7: in a successful grouping, the bucket of every target name is
exactly the sublist of the input fonts (one occurrence per occurrence of
the target name in the font targets list) in original declaration order:
each font value itself is appended — no copy is made in the value model —
to the bucket of each of its target names, and distinct fonts mapped to the
same target keep their relative order. -/
theorem groupByTarget_buckets (fonts : List Font) (g : FontsGrouped)
    (h : groupByTarget fonts = Except.ok g) (t : String) :
    bucketGet g t = fonts.flatMap (fun f =>
      ((f.targets.getD []).filter (fun x => x == t)).map (fun _ => f)) := by
  have := groupFoldlM_ok fonts [] g h t
  simpa [bucketGet] using this

/-- C7 (witness): grouping a shared font declared for targets A and B
together with a B-only font puts the shared font value in both buckets, in
declaration order relative to its sibling. -/
theorem groupByTarget_buckets_witness :
    bucketGet [("A", [demoFontShared]), ("B", [demoFontShared, demoFontBOnly])] "A" =
      [demoFontShared] ∧
    bucketGet [("A", [demoFontShared]), ("B", [demoFontShared, demoFontBOnly])] "B" =
      [demoFontShared, demoFontBOnly] := by
  constructor
  · exact (groupByTarget_buckets [demoFontShared, demoFontBOnly]
      [("A", [demoFontShared]), ("B", [demoFontShared, demoFontBOnly])] rfl "A").trans (by decide)
  · exact (groupByTarget_buckets [demoFontShared, demoFontBOnly]
      [("A", [demoFontShared]), ("B", [demoFontShared, demoFontBOnly])] rfl "B").trans (by decide)

/-! ## Claim C8 -/

theorem contains_append_one (l : List String) (a : String) : (l ++ [a]).contains a = true := by
  simp

set_option maxRecDepth 8192 in
theorem patchPlistContent_default (p : String) (fonts : List Font) :
    patchPlistContent p defaultInfoPlist fonts =
      Except.ok (defaultInfoPlistHead ++ insertionContents fonts ++ defaultInfoPlistTail) := by
  have hidx : listIndexOf? defaultInfoPlist.data ("<dict>" : String).data = some 200 := by
    decide
  unfold patchPlistContent
  rw [jsIndexOf_of_some _ _ _ hidx]
  simp only [ofNat_beq_negOne, Bool.false_eq_true, if_false, Int.toNat_ofNat]
  have hsplice : strSplice defaultInfoPlist (200 + ("<dict>" : String).length)
      (insertionContents fonts) =
      defaultInfoPlistHead ++ insertionContents fonts ++ defaultInfoPlistTail := by
    apply strEq_of_data
    show List.take (200 + ("<dict>" : String).length) defaultInfoPlist.data ++
        (insertionContents fonts).data ++
        List.drop (200 + ("<dict>" : String).length) defaultInfoPlist.data = _
    rw [show List.take (200 + ("<dict>" : String).length) defaultInfoPlist.data =
        defaultInfoPlistHead.data from by decide,
      show List.drop (200 + ("<dict>" : String).length) defaultInfoPlist.data =
        defaultInfoPlistTail.data from by decide]
    rw [strData_append, strData_append]
  rw [hsplice]

/-- C8: when the plist file of a target is missing, the step first makes
sure the parent directory exists, writes the minimal empty plist document,
and patches that document in the SAME invocation: the trace is exactly the
creation write followed by the patch write, the step succeeds, the final
file content is the default document with exactly the one new fragment
spliced in after its `<dict>`, and the parent directory is present in the
resulting filesystem. -/
theorem updateInfoPlist_creates_missing_file (root : String) (fs : FSState) (t : String)
    (fonts : List Font) (h : fsRead fs (plistPath root t) = none) :
    (updateInfoPlistForTarget root fs t fonts).1 =
      [Event.plistWrite (plistPath root t) defaultInfoPlist,
       Event.plistWrite (plistPath root t)
         (defaultInfoPlistHead ++ insertionContents fonts ++ defaultInfoPlistTail)] ∧
    (updateInfoPlistForTarget root fs t fonts).2.2 = Except.ok () ∧
    fsRead (updateInfoPlistForTarget root fs t fonts).2.1 (plistPath root t) =
      some (defaultInfoPlistHead ++ insertionContents fonts ++ defaultInfoPlistTail) ∧
    (updateInfoPlistForTarget root fs t fonts).2.1.dirs.contains
      (dirname (plistPath root t)) = true := by
  have hstep : updateInfoPlistForTarget root fs t fonts =
      ([Event.plistWrite (plistPath root t) defaultInfoPlist,
        Event.plistWrite (plistPath root t)
          (defaultInfoPlistHead ++ insertionContents fonts ++ defaultInfoPlistTail)],
       fsWrite (fsWrite
           (if fs.dirs.contains (dirname (plistPath root t)) then fs
            else mkdirRecursive fs (dirname (plistPath root t)))
           (plistPath root t) defaultInfoPlist)
         (plistPath root t)
         (defaultInfoPlistHead ++ insertionContents fonts ++ defaultInfoPlistTail),
       Except.ok ()) := by
    unfold updateInfoPlistForTarget
    simp only [h, fsRead_fsWrite_self, Option.getD_some, patchPlistContent_default,
      List.singleton_append]
  refine ⟨by rw [hstep], by rw [hstep], ?_, ?_⟩
  · rw [hstep]
    exact fsRead_fsWrite_self _ _ _
  · rw [hstep]
    simp only [fsWrite_dirs]
    by_cases hd : fs.dirs.contains (dirname (plistPath root t)) = true
    · rw [if_pos hd]
      exact hd
    · rw [if_neg hd]
      exact contains_append_one _ _

/-- C8 (witness): on an empty filesystem the step creates and patches the
plist of target A, ending with the default document holding exactly the
fragment for the single font. -/
theorem updateInfoPlist_creates_missing_file_witness :
    fsRead (updateInfoPlistForTarget "r" { files := [], dirs := [] } "A" [demoFontOne]).2.1
        (plistPath "r" "A") =
      some (defaultInfoPlistHead ++ insertionContents [demoFontOne] ++ defaultInfoPlistTail) :=
  (updateInfoPlist_creates_missing_file "r" { files := [], dirs := [] } "A" [demoFontOne]
    rfl).2.2.1

/-! ## Trace structure lemmas for the pipeline -/

theorem addFontToXcodeProj_events (config : Config) (targetName : String) (fonts : List Font) :
    ∀ e ∈ (addFontToXcodeProj config targetName fonts).1,
      isResolveE e = true ∨ isRegisterE e = true := by
  intro e he
  rcases hres : getPBXTargetByName config.modResults targetName with _ | pair
  · simp only [addFontToXcodeProj, hres, List.mem_singleton] at he
    subst he
    exact Or.inl rfl
  · rcases pair with ⟨uuid, tgt⟩
    simp only [addFontToXcodeProj, hres, List.mem_cons] at he
    rcases he with he | he
    · subst he
      exact Or.inl rfl
    · rcases List.mem_map.mp he with ⟨fp, _, hfp⟩
      subst hfp
      exact Or.inr rfl

theorem addFontsLoop_events (grouped : FontsGrouped) :
    ∀ (ts : List String) (config : Config),
      ∀ e ∈ (addFontsLoop grouped config ts).1, isResolveE e = true ∨ isRegisterE e = true := by
  intro ts
  induction ts with
  | nil =>
    intro config e he
    simp [addFontsLoop] at he
  | cons target rest ih =>
    intro config e he
    rcases hstep : addFontToXcodeProj config target (bucketGet grouped target) with ⟨evs, r⟩
    have h1 : ∀ x ∈ evs, isResolveE x = true ∨ isRegisterE x = true := by
      have := addFontToXcodeProj_events config target (bucketGet grouped target)
      rw [hstep] at this
      exact this
    simp only [addFontsLoop, hstep] at he
    rcases r with msg | config1
    · simp only at he
      exact h1 e he
    · simp only at he
      rcases List.mem_append.mp he with h2 | h2
      · exact h1 e h2
      · exact ih config1 e h2

theorem copyFontFiles_shape (fs : FSState) (config : Config) (options : Options) :
    ((copyFontFiles fs config options).1 = [] ∧
      (copyFontFiles fs config options).2.2 ≠ Except.ok ()) ∨
    ((copyFontFiles fs config options).1 =
        [Event.copy (pathJoin config.projectRoot options.srcFolder)
          (pathJoin (pathJoin config.projectRoot "ios") "Fonts")] ∧
      (copyFontFiles fs config options).2.2 = Except.ok ()) := by
  unfold copyFontFiles
  by_cases hmem : pathJoin config.projectRoot options.srcFolder ∈ fs.dirs
  · right
    simp [hmem]
  · by_cases hread : fsRead fs (pathJoin config.projectRoot options.srcFolder) = none
    · left
      simp [hmem, hread]
    · left
      simp [hmem, hread]

theorem updateXcodeProject_shape (fs : FSState) (config : Config) (options : Options)
    (grouped : FontsGrouped) :
    ((updateXcodeProject fs config options grouped).1 = [] ∧
      ∀ cfg, (updateXcodeProject fs config options grouped).2.2 ≠ Except.ok cfg) ∨
    ∃ rEvs, (updateXcodeProject fs config options grouped).1 =
        Event.copy (pathJoin config.projectRoot options.srcFolder)
          (pathJoin (pathJoin config.projectRoot "ios") "Fonts") :: rEvs ∧
      (∀ e ∈ rEvs, isResolveE e = true ∨ isRegisterE e = true) := by
  rcases hc : copyFontFiles fs config options with ⟨cEvs, fsa, rc⟩
  have hshape := copyFontFiles_shape fs config options
  rw [hc] at hshape
  rcases rc with msg | u
  · left
    constructor
    · rcases hshape with ⟨h1, _⟩ | ⟨_, h2⟩
      · simp only [updateXcodeProject, hc]
        exact h1
      · exact absurd h2 (by simp)
    · intro cfg
      simp only [updateXcodeProject, hc]
      simp
  · right
    rcases hshape with ⟨_, h2⟩ | ⟨h1, _⟩
    · exact absurd rfl h2
    · refine ⟨(addFontsLoop grouped config (grouped.map (·.1))).1, ?_, ?_⟩
      · have hc1 : cEvs =
            [Event.copy (pathJoin config.projectRoot options.srcFolder)
              (pathJoin (pathJoin config.projectRoot "ios") "Fonts")] := h1
        simp only [updateXcodeProject, hc, hc1]
        rfl
      · exact fun e he => addFontsLoop_events grouped (grouped.map (·.1)) config e he

theorem updateInfoPlistForTarget_events (root : String) (fs : FSState) (t : String)
    (fonts : List Font) :
    ∀ e ∈ (updateInfoPlistForTarget root fs t fonts).1, isPlistWriteE e = true := by
  intro e he
  simp only [updateInfoPlistForTarget] at he
  split at he <;> split at he <;>
    (simp only [List.nil_append, List.append_nil, List.singleton_append, List.mem_singleton,
        List.mem_cons, List.not_mem_nil, or_false, false_or] at he) <;>
    first
      | (rcases he with he | he) <;> (subst he; rfl)
      | (subst he; rfl)

theorem updateInfoPlistLoop_events (root : String) :
    ∀ (g : FontsGrouped) (fs : FSState),
      ∀ e ∈ (updateInfoPlistLoop root fs g).1, isPlistWriteE e = true := by
  intro g
  induction g with
  | nil =>
    intro fs e he
    simp [updateInfoPlistLoop] at he
  | cons pair rest ih =>
    intro fs e he
    rcases pair with ⟨tn, tfonts⟩
    rcases hstep : updateInfoPlistForTarget root fs tn tfonts with ⟨evs, fs1, r⟩
    have h1 : ∀ x ∈ evs, isPlistWriteE x = true := by
      have := updateInfoPlistForTarget_events root fs tn tfonts
      rw [hstep] at this
      exact this
    simp only [updateInfoPlistLoop, hstep] at he
    rcases r with msg | u
    · simp only at he
      exact h1 e he
    · simp only at he
      rcases List.mem_append.mp he with h2 | h2
      · exact h1 e h2
      · exact ih fs1 e h2

theorem pipelineTrace_shape (fs : FSState) (config : Config) (options : Options) :
    ((injectExpoNativeFontsIOS fs config options).1 = [Event.filter] ∧
      ∀ cfg, (injectExpoNativeFontsIOS fs config options).2.2 ≠ Except.ok cfg) ∨
    ∃ pEvs xEvs,
      (injectExpoNativeFontsIOS fs config options).1 =
        Event.filter :: Event.group :: (pEvs ++ xEvs) ∧
      (∀ e ∈ pEvs, isPlistWriteE e = true) ∧
      (xEvs = [] ∨ ∃ rEvs,
        xEvs = Event.copy (pathJoin config.projectRoot options.srcFolder)
          (pathJoin (pathJoin config.projectRoot "ios") "Fonts") :: rEvs ∧
        (∀ e ∈ rEvs, isResolveE e = true ∨ isRegisterE e = true)) ∧
      (∀ cfg, (injectExpoNativeFontsIOS fs config options).2.2 = Except.ok cfg →
        ∃ rEvs,
          xEvs = Event.copy (pathJoin config.projectRoot options.srcFolder)
            (pathJoin (pathJoin config.projectRoot "ios") "Fonts") :: rEvs ∧
          (∀ e ∈ rEvs, isResolveE e = true ∨ isRegisterE e = true)) := by
  rcases hg : groupByTarget (getIOSFonts options) with msg | grouped
  · left
    constructor
    · simp only [injectExpoNativeFontsIOS, hg]
    · intro cfg
      simp only [injectExpoNativeFontsIOS, hg]
      simp
  · rcases hp : updateInfoPlist config fs grouped with ⟨evs1, fs1, r1⟩
    have hplist : ∀ x ∈ evs1, isPlistWriteE x = true := by
      have := updateInfoPlistLoop_events config.projectRoot grouped fs
      rw [show updateInfoPlistLoop config.projectRoot fs grouped =
        (evs1, fs1, r1) from hp] at this
      exact this
    rcases r1 with msg1 | u1
    · right
      refine ⟨evs1, [], ?_, hplist, Or.inl rfl, ?_⟩
      · simp only [injectExpoNativeFontsIOS, hg, hp]
        simp
      · intro cfg hcfg
        simp only [injectExpoNativeFontsIOS, hg, hp] at hcfg
        simp at hcfg
    · rcases hx : updateXcodeProject fs1 config options grouped with ⟨evs2, fs2, r2⟩
      have hxshape := updateXcodeProject_shape fs1 config options grouped
      rw [hx] at hxshape
      right
      refine ⟨evs1, evs2, ?_, hplist, ?_, ?_⟩
      · simp only [injectExpoNativeFontsIOS, hg, hp, hx]
      · rcases hxshape with ⟨h1, _⟩ | ⟨rEvs, h1, h2⟩
        · exact Or.inl h1
        · exact Or.inr ⟨rEvs, h1, h2⟩
      · intro cfg hcfg
        simp only [injectExpoNativeFontsIOS, hg, hp, hx] at hcfg
        rcases hxshape with ⟨_, h2⟩ | ⟨rEvs, h1, h2⟩
        · exact absurd hcfg (h2 cfg)
        · exact ⟨rEvs, h1, h2⟩

/-! ## Claim C3 -/

theorem stageRank_of_plistWrite (e : Event) (h : isPlistWriteE e = true) : stageRank e = 2 := by
  cases e <;> simp_all [isPlistWriteE, stageRank]

theorem stageRank_of_resolveOrRegister (e : Event)
    (h : isResolveE e = true ∨ isRegisterE e = true) : stageRank e = 4 := by
  cases e <;> simp_all [isResolveE, isRegisterE, stageRank]

theorem not_copy_of_plistWrite (e : Event) (h : isPlistWriteE e = true) : isCopyE e = false := by
  cases e <;> simp_all [isPlistWriteE, isCopyE]

theorem not_copy_of_resolveOrRegister (e : Event)
    (h : isResolveE e = true ∨ isRegisterE e = true) : isCopyE e = false := by
  cases e <;> simp_all [isResolveE, isRegisterE, isCopyE]

theorem pairwise_le_const (l : List Nat) (c : Nat) (h : ∀ a ∈ l, a = c) :
    l.Pairwise (· ≤ ·) := by
  induction l with
  | nil => exact List.Pairwise.nil
  | cons a t ih =>
    refine List.Pairwise.cons ?_ (ih fun x hx => h x (by simp [hx]))
    intro b hb
    rw [h a (by simp), h b (by simp [hb])]

/-- C3 (counterexample): in a concrete successful run, the plist-patch
write is trace position 2 while the copy is position 3 — the property-list
patching happens BEFORE the asset copy, contradicting the claimed order
(Filter, Group, Copy, Plist Patch, Project Patch) in which the copy
precedes every plist patch. -/
theorem pipeline_plist_patch_precedes_copy :
    (injectExpoNativeFontsIOS demoFS demoConfig demoOptions).1.findIdx? isPlistWriteE =
      some 2 ∧
    (injectExpoNativeFontsIOS demoFS demoConfig demoOptions).1.findIdx? isCopyE = some 3 := by
  constructor <;> decide

/-- C3 (amended): the pipeline stages run in the order Filter, Group,
per-target Plist Patch, then the asset Copy, then per-target Project
Registration: the stage rank (filter 0, group 1, plist write 2, copy 3,
resolution and registration 4) is monotone non-decreasing along every
trace; and the copy runs AT MOST once per invocation, EXACTLY once whenever
the pipeline succeeds, regardless of the number of targets. -/
theorem pipeline_stage_ranks (fs : FSState) (config : Config) (options : Options) :
    ((injectExpoNativeFontsIOS fs config options).1.map stageRank).Pairwise (· ≤ ·) ∧
    (injectExpoNativeFontsIOS fs config options).1.countP isCopyE ≤ 1 ∧
    (∀ cfg, (injectExpoNativeFontsIOS fs config options).2.2 = Except.ok cfg →
      (injectExpoNativeFontsIOS fs config options).1.countP isCopyE = 1) := by
  rcases pipelineTrace_shape fs config options with ⟨h1, h2⟩ | ⟨pEvs, xEvs, htr, hplist, hx, hok⟩
  · rw [h1]
    refine ⟨by simp, by simp [List.countP_cons, isCopyE], ?_⟩
    intro cfg hcfg
    exact absurd hcfg (h2 cfg)
  · have hxranks : ((xEvs.map stageRank).Pairwise (· ≤ ·)) ∧
        (∀ r ∈ xEvs.map stageRank, 3 ≤ r) ∧ xEvs.countP isCopyE ≤ 1 ∧
        (∀ rEvs, xEvs = Event.copy (pathJoin config.projectRoot options.srcFolder)
            (pathJoin (pathJoin config.projectRoot "ios") "Fonts") :: rEvs →
          (∀ e ∈ rEvs, isResolveE e = true ∨ isRegisterE e = true) →
          xEvs.countP isCopyE = 1) := by
      rcases hx with hx0 | ⟨rEvs, hx1, hx2⟩
      · subst hx0
        refine ⟨List.Pairwise.nil, by simp, by simp, ?_⟩
        intro rEvs hc
        exact absurd hc (by simp)
      · subst hx1
        have hr4 : ∀ r ∈ rEvs.map stageRank, r = 4 := by
          intro r hr
          rcases List.mem_map.mp hr with ⟨e, he, heq⟩
          rw [← heq]
          exact stageRank_of_resolveOrRegister e (hx2 e he)
        have hrcount : rEvs.countP isCopyE = 0 :=
          List.countP_eq_zero.mpr fun e he => by
            simp [not_copy_of_resolveOrRegister e (hx2 e he)]
        refine ⟨?_, ?_, ?_, ?_⟩
        · simp only [List.map_cons]
          refine List.Pairwise.cons ?_ (pairwise_le_const _ 4 hr4)
          intro b hb
          rw [hr4 b hb]
          simp [stageRank]
        · intro r hr
          simp only [List.map_cons, List.mem_cons] at hr
          rcases hr with hr | hr
          · simp [hr, stageRank]
          · rw [hr4 r hr]
            omega
        · simp [List.countP_cons, isCopyE, hrcount]
        · intro rEvs' _ _
          simp [List.countP_cons, isCopyE, hrcount]
    have hp2 : ∀ r ∈ pEvs.map stageRank, r = 2 := by
      intro r hr
      rcases List.mem_map.mp hr with ⟨e, he, heq⟩
      rw [← heq]
      exact stageRank_of_plistWrite e (hplist e he)
    have hpcount : pEvs.countP isCopyE = 0 :=
      List.countP_eq_zero.mpr fun e he => by
        simp [not_copy_of_plistWrite e (hplist e he)]
    rw [htr]
    refine ⟨?_, ?_, ?_⟩
    · simp only [List.map_cons, List.map_append]
      refine List.Pairwise.cons ?_ (List.Pairwise.cons ?_ ?_)
      · intro b hb
        exact Nat.zero_le b
      · intro b hb
        have hg : stageRank Event.group = 1 := rfl
        rcases List.mem_append.mp hb with hb | hb
        · rw [hp2 b hb, hg]
          omega
        · have := hxranks.2.1 b hb
          rw [hg]
          omega
      · refine List.pairwise_append.mpr ⟨pairwise_le_const _ 2 hp2, hxranks.1, ?_⟩
        intro a ha b hb
        rw [hp2 a ha]
        have := hxranks.2.1 b hb
        omega
    · simp only [List.countP_cons, List.countP_append]
      have h0 : isCopyE Event.filter = false := rfl
      have h0g : isCopyE Event.group = false := rfl
      simp [h0, h0g, hpcount]
      omega
    · intro cfg hcfg
      have hcfg' : (injectExpoNativeFontsIOS fs config options).2.2 = Except.ok cfg := hcfg
      rcases hok cfg hcfg' with ⟨rEvs, hx1, hx2⟩
      have hcount1 : xEvs.countP isCopyE = 1 := hxranks.2.2.2 rEvs hx1 hx2
      simp only [List.countP_cons, List.countP_append]
      have h0 : isCopyE Event.filter = false := rfl
      have h0g : isCopyE Event.group = false := rfl
      simp [h0, h0g, hpcount, hcount1]

/-- C3 (witness): the amended theorem at a concrete successful run — the
copy happens exactly once. -/
theorem pipeline_stage_ranks_witness :
    (injectExpoNativeFontsIOS demoFS demoConfig demoOptions).1.countP isCopyE = 1 :=
  (pipeline_stage_ranks demoFS demoConfig demoOptions).2.2 _ rfl

/-! ## Claim C10 -/

theorem not_resolve_of_plistWrite (e : Event) (h : isPlistWriteE e = true) :
    isResolveE e = false := by
  cases e <;> simp_all [isPlistWriteE, isResolveE]

theorem not_plistWrite_of_resolveOrRegister (e : Event)
    (h : isResolveE e = true ∨ isRegisterE e = true) : isPlistWriteE e = false := by
  cases e <;> simp_all [isResolveE, isRegisterE, isPlistWriteE]

theorem dropWhile_append_of_all {α : Type} (l1 l2 : List α) (p : α → Bool)
    (h : ∀ e ∈ l1, p e = true) : (l1 ++ l2).dropWhile p = l2.dropWhile p := by
  induction l1 with
  | nil => rfl
  | cons a t ih =>
    simp only [List.cons_append, List.dropWhile_cons]
    rw [if_pos (h a (by simp))]
    exact ih fun e he => h e (by simp [he])

theorem all_dropWhile {α : Type} (l : List α) (p q : α → Bool)
    (h : ∀ e ∈ l, q e = true) : (l.dropWhile p).all q = true := by
  induction l with
  | nil => rfl
  | cons a t ih =>
    rw [List.dropWhile_cons]
    by_cases hp : p a = true
    · rw [if_pos hp]
      exact ih fun e he => h e (by simp [he])
    · rw [if_neg hp]
      refine List.all_eq_true.mpr fun e he => ?_
      exact h e he

theorem strSplice_data (s : String) (i : Nat) (ins : String) :
    (strSplice s i ins).data = s.data.take i ++ ins.data ++ s.data.drop i := rfl

theorem listIndexOf?_isSome_append (x : List Char) :
    ∀ (a b : List Char), (listIndexOf? (a ++ x ++ b) x).isSome = true := by
  intro a
  induction a with
  | nil =>
    intro b
    simp only [List.nil_append]
    rcases hxb : x ++ b with _ | ⟨c, t⟩
    · have hx : x = [] := (List.append_eq_nil.mp hxb).1
      simp [listIndexOf?, hx]
    · unfold listIndexOf?
      rw [if_pos (List.isPrefixOf_iff_prefix.mpr ⟨b, hxb⟩)]
      rfl
  | cons c t ih =>
    intro b
    simp only [List.cons_append]
    unfold listIndexOf?
    split
    · rfl
    · simp only [List.append_assoc] at ih ⊢
      have := ih b
      rcases Option.isSome_iff_exists.mp (by simpa using this) with ⟨i, hi⟩
      simp [hi]

theorem patchPlistContent_ok_contains (p contents : String) (fonts : List Font) (nc : String)
    (h : patchPlistContent p contents fonts = Except.ok nc) :
    (listIndexOf? nc.data (insertionContents fonts).data).isSome = true := by
  unfold patchPlistContent at h
  by_cases h1 : (jsIndexOf contents "<dict>" == -1) = true
  · rw [if_pos h1] at h
    by_cases h2 : (jsIndexOf contents "</plist>" == -1) = true
    · rw [if_pos h2] at h
      exact Except.noConfusion h
    · rw [if_neg h2] at h
      have hnc : nc = strSplice contents (jsIndexOf contents "</plist>").toNat
          (insertionContents fonts) := (Except.ok.inj h).symm
      rw [hnc, strSplice_data]
      exact listIndexOf?_isSome_append (insertionContents fonts).data _ _
  · rw [if_neg h1] at h
    have hnc : nc = strSplice contents
        ((jsIndexOf contents "<dict>").toNat + ("<dict>" : String).length)
        (insertionContents fonts) := (Except.ok.inj h).symm
    rw [hnc, strSplice_data]
    exact listIndexOf?_isSome_append (insertionContents fonts).data _ _

theorem updateInfoPlistForTarget_ok_contains (root : String) (fs : FSState) (t : String)
    (fonts : List Font) (evs : List Event) (fs' : FSState)
    (h : updateInfoPlistForTarget root fs t fonts = (evs, fs', Except.ok ())) :
    ((fsRead fs' (plistPath root t)).map
      (fun c => (listIndexOf? c.data (insertionContents fonts).data).isSome)) = some true := by
  rcases hr : fsRead fs (plistPath root t) with _ | c <;>
    simp only [updateInfoPlistForTarget, hr, Option.getD_some, fsRead_fsWrite_self] at h <;>
    [skip; skip] <;>
    (split at h
     · exact absurd (congrArg (fun x => x.2.2) h) (by simp)
     · rename_i nc heq
       have hfs' : fsWrite _ (plistPath root t) nc = fs' := congrArg (fun x => x.2.1) h
       rw [← hfs', fsRead_fsWrite_self]
       simp only [Option.map_some']
       rw [patchPlistContent_ok_contains _ _ _ _ heq])

theorem plistPath_inj (root t1 t2 : String) (h : plistPath root t1 = plistPath root t2) :
    t1 = t2 := by
  unfold plistPath pathJoin at h
  have hd := congrArg String.data h
  simp only [strData_append] at hd
  have h1 := List.append_cancel_right hd
  have h2 := List.append_cancel_right h1
  have h3 := List.append_cancel_left h2
  exact strEq_of_data h3

theorem updateInfoPlistForTarget_preserves (root : String) (fs : FSState) (t : String)
    (fonts : List Font) (q : String) (hq : q ≠ plistPath root t) :
    fsRead (updateInfoPlistForTarget root fs t fonts).2.1 q = fsRead fs q := by
  rcases hr : fsRead fs (plistPath root t) with _ | c
  · simp only [updateInfoPlistForTarget, hr]
    split
    · rw [fsRead_fsWrite_ne _ _ _ _ hq]
      by_cases hd : fs.dirs.contains (dirname (plistPath root t)) = true
      · rw [if_pos hd]
      · rw [if_neg hd]
        rfl
    · rw [fsRead_fsWrite_ne _ _ _ _ hq, fsRead_fsWrite_ne _ _ _ _ hq]
      by_cases hd : fs.dirs.contains (dirname (plistPath root t)) = true
      · rw [if_pos hd]
      · rw [if_neg hd]
        rfl
  · simp only [updateInfoPlistForTarget, hr]
    split
    · rfl
    · rw [fsRead_fsWrite_ne _ _ _ _ hq]

theorem updateInfoPlistLoop_preserves (root : String) :
    ∀ (g : FontsGrouped) (fs : FSState) (q : String),
      (∀ pair ∈ g, q ≠ plistPath root pair.1) →
      fsRead (updateInfoPlistLoop root fs g).2.1 q = fsRead fs q := by
  intro g
  induction g with
  | nil =>
    intro fs q _
    rfl
  | cons pair rest ih =>
    intro fs q h
    rcases pair with ⟨tn, tfonts⟩
    rcases hstep : updateInfoPlistForTarget root fs tn tfonts with ⟨evs, fs1, r⟩
    have hpres : fsRead fs1 q = fsRead fs q := by
      have := updateInfoPlistForTarget_preserves root fs tn tfonts q (h (tn, tfonts) (by simp))
      rw [hstep] at this
      exact this
    simp only [updateInfoPlistLoop, hstep]
    rcases r with msg | u
    · simpa using hpres
    · simp only
      rw [ih fs1 q fun p hp => h p (by simp [hp])]
      exact hpres

theorem bucketAdd_keys (g : FontsGrouped) (src : String) (f : Font) :
    (bucketAdd g src f).map (·.1) =
      if (List.any g fun e => e.1 == src) then g.map (·.1) else g.map (·.1) ++ [src] := by
  unfold bucketAdd
  by_cases hany : (List.any g fun e => e.1 == src) = true
  · rw [if_pos hany, if_pos hany, List.map_map]
    apply List.map_congr_left
    intro e _
    simp only [Function.comp_apply]
    split <;> rfl
  · rw [if_neg hany, if_neg hany, List.map_append]
    rfl

theorem keysNodup_bucketAdd (g : FontsGrouped) (src : String) (f : Font)
    (h : (g.map (·.1)).Nodup) : ((bucketAdd g src f).map (·.1)).Nodup := by
  rw [bucketAdd_keys]
  by_cases hany : (List.any g fun e => e.1 == src) = true
  · rw [if_pos hany]
    exact h
  · rw [if_neg hany]
    have hnot : src ∉ g.map (·.1) := by
      intro hmem
      rcases List.mem_map.mp hmem with ⟨e, he, heq⟩
      exact hany (List.any_eq_true.mpr ⟨e, he, by simp [heq]⟩)
    simp [List.nodup_append, h, hnot]

theorem keysNodup_targetsFold (ts : List String) (f : Font) :
    ∀ g : FontsGrouped, (g.map (·.1)).Nodup →
      ((ts.foldl (fun g t' => bucketAdd g t' f) g).map (·.1)).Nodup := by
  induction ts with
  | nil => exact fun g h => h
  | cons src ts' ih =>
    intro g h
    simp only [List.foldl_cons]
    exact ih _ (keysNodup_bucketAdd g src f h)

theorem groupByTarget_keysNodup (fonts : List Font) :
    ∀ g0 g : FontsGrouped, (g0.map (·.1)).Nodup →
      fonts.foldlM groupStep g0 = Except.ok g → (g.map (·.1)).Nodup := by
  induction fonts with
  | nil =>
    intro g0 g h0 h
    simp only [List.foldlM_nil] at h
    cases h
    exact h0
  | cons f rest ih =>
    intro g0 g h0 h
    rcases ht : f.targets with _ | ts
    · simp only [List.foldlM_cons, groupStep, ht] at h
      exact Except.noConfusion h
    · simp only [List.foldlM_cons, groupStep, ht] at h
      exact ih _ g (keysNodup_targetsFold ts f g0 h0) h

theorem updateInfoPlistLoop_contains (root : String) :
    ∀ (g : FontsGrouped) (fs : FSState) (evs : List Event) (fs' : FSState),
      (g.map (·.1)).Nodup →
      updateInfoPlistLoop root fs g = (evs, fs', Except.ok ()) →
      ∀ pair ∈ g,
        ((fsRead fs' (plistPath root pair.1)).map
          (fun c => (listIndexOf? c.data (insertionContents pair.2).data).isSome)) =
          some true := by
  intro g
  induction g with
  | nil =>
    intro fs evs fs' _ _ pair hpair
    simp at hpair
  | cons hd rest ih =>
    intro fs evs fs' hnodup h pair hpair
    rcases hd with ⟨tn, tfonts⟩
    rcases hstep : updateInfoPlistForTarget root fs tn tfonts with ⟨evs0, fs1, r⟩
    simp only [updateInfoPlistLoop, hstep] at h
    rcases r with msg | u
    · exact absurd (congrArg (fun x => x.2.2) h) (by simp)
    · simp only at h
      rcases hloop : updateInfoPlistLoop root fs1 rest with ⟨evs1, fs2, r1⟩
      rw [hloop] at h
      simp only [Prod.mk.injEq] at h
      obtain ⟨-, hfs', hr1⟩ := h
      subst hfs'
      rcases List.mem_cons.mp hpair with hpair | hpair
      · subst hpair
        have hc := updateInfoPlistForTarget_ok_contains root fs tn tfonts evs0 fs1 hstep
        have hkey : tn ∉ rest.map (·.1) := by
          simp only [List.map_cons] at hnodup
          exact (List.nodup_cons.mp hnodup).1
        have hq : ∀ p ∈ rest, plistPath root tn ≠ plistPath root p.1 := by
          intro p hp heq
          have hteq : tn = p.1 := plistPath_inj root tn p.1 heq
          exact hkey (hteq ▸ List.mem_map_of_mem (·.1) hp)
        have hpres := updateInfoPlistLoop_preserves root rest fs1 (plistPath root tn) hq
        rw [hloop] at hpres
        simp only at hpres
        rw [hpres]
        exact hc
      · have hn2 : (rest.map (·.1)).Nodup := by
          simp only [List.map_cons] at hnodup
          exact (List.nodup_cons.mp hnodup).2
        rw [hr1] at hloop
        exact ih fs1 evs1 fs2 hn2 hloop pair hpair

/-- C10: every plist patch happens before any target resolution.  First
conjunct: in every trace, once the first resolution event occurs no plist
write follows (so all plist writes, including those of an eventually
unresolvable target, precede every resolution, and in particular precede
the abort when a target cannot be resolved).  Second conjunct: whenever the
plist stage completes (as it must for resolution to be reached at all),
every grouped target — the unresolvable one included — has its plist file
on disk containing its font-array fragment. -/
theorem pipeline_plists_written_before_resolution :
    (∀ (fs : FSState) (config : Config) (options : Options),
      (((injectExpoNativeFontsIOS fs config options).1.dropWhile
          (fun e => !isResolveE e)).all (fun e => !isPlistWriteE e)) = true) ∧
    (∀ (fonts : List Font) (grouped : FontsGrouped) (config : Config) (fs : FSState)
        (evs : List Event) (fs' : FSState),
      groupByTarget fonts = Except.ok grouped →
      updateInfoPlist config fs grouped = (evs, fs', Except.ok ()) →
      ∀ pair ∈ grouped,
        ((fsRead fs' (plistPath config.projectRoot pair.1)).map
          (fun c => (listIndexOf? c.data (insertionContents pair.2).data).isSome)) =
          some true) := by
  constructor
  · intro fs config options
    rcases pipelineTrace_shape fs config options with ⟨h1, _⟩ | ⟨pEvs, xEvs, htr, hplist, hx, _⟩
    · rw [h1]
      decide
    · rw [htr]
      rw [List.dropWhile_cons, if_pos (by rfl), List.dropWhile_cons, if_pos (by rfl)]
      rw [dropWhile_append_of_all pEvs xEvs _
        (fun e he => by rw [Bool.not_eq_true']; exact not_resolve_of_plistWrite e (hplist e he))]
      rcases hx with hx0 | ⟨rEvs, hx1, hx2⟩
      · rw [hx0]
        rfl
      · rw [hx1, List.dropWhile_cons, if_pos (by rfl)]
        exact all_dropWhile rEvs _ _
          (fun e he => by
            rw [Bool.not_eq_true']
            exact not_plistWrite_of_resolveOrRegister e (hx2 e he))
  · intro fonts grouped config fs evs fs' hg hloop pair hpair
    have hnodup : (grouped.map (·.1)).Nodup :=
      groupByTarget_keysNodup fonts [] grouped List.nodup_nil hg
    exact updateInfoPlistLoop_contains config.projectRoot grouped fs evs fs' hnodup hloop
      pair hpair

/-- C10 (witness): the concrete plist stage on the demo filesystem leaves
the target-A plist containing its fragment. -/
theorem pipeline_plists_written_before_resolution_witness :
    ((fsRead (updateInfoPlist demoConfig demoFS [("A", [demoFontOne])]).2.1
        (plistPath "r" "A")).map
      (fun c => (listIndexOf? c.data (insertionContents [demoFontOne]).data).isSome)) =
      some true :=
  (pipeline_plists_written_before_resolution.2 [demoFontOne] [("A", [demoFontOne])]
    demoConfig demoFS
    (updateInfoPlist demoConfig demoFS [("A", [demoFontOne])]).1
    (updateInfoPlist demoConfig demoFS [("A", [demoFontOne])]).2.1
    rfl rfl ("A", [demoFontOne]) (by simp))

/-- C9 (witness): the amended theorem at concrete inputs — a non-empty name
is kept, and a single-occurrence extension is stripped from the end. -/
theorem getFontName_amended_witness :
    getFontName { filePath := "fonts/x.ttf", name := some "Nice" } = "Nice" ∧
    getFontName { filePath := "fonts/x.ttf" } = "x" := by
  constructor
  · exact getFontName_amended.1 { filePath := "fonts/x.ttf", name := some "Nice" } "Nice" rfl
      (by decide)
  · exact (getFontName_amended.2 { filePath := "fonts/x.ttf" } rfl
      (Or.inr (by decide))).trans (by decide)

end ExpoNativeFonts
